import Mathlib

/-!
Shallow embedding of the pgdn-ws Connection Registry & Dispatch Engine
(`pgdn_ws/manager.py`) and Rate Limiter subsystem (`pgdn_ws/rate_limit.py`,
`pgdn_ws/config.py`), with theorems settling the spec claims.

Conventions of the embedding:
* Python dicts are association lists (`List (K × V)`); `alGet` is `dict.get`,
  `alSet` is `dict[k] = v`, `alDel` is `del dict[k]`.
* Python sets of websockets are duplicate-free `List Nat` (handles are
  numbered); `setAdd` is `set.add`, `setDiscard` is `set.discard`.
* Timestamps and token counts are exact rationals (`ℚ`); the Python floats
  implement the same algebra at the granularity the spec claims use.
* A Python value that may fail to convert (`int(x)`) is an `Except`;
  a caught exception is a branch, an uncaught one an `Except.error`.
* A Python falsy `user_id` (None or "") is `Option.none`.
-/

/-- `dict.get k` on an association list: first entry with key `k`. -/
def alGet {K V : Type} [DecidableEq K] (d : List (K × V)) (k : K) : Option V :=
  match d with
  | [] => none
  | (k', v) :: rest => if k' = k then some v else alGet rest k

/-- `dict[k] = v`: replace the first entry with key `k`, else append. -/
def alSet {K V : Type} [DecidableEq K] (d : List (K × V)) (k : K) (v : V) :
    List (K × V) :=
  match d with
  | [] => [(k, v)]
  | (k', v') :: rest =>
      if k' = k then (k, v) :: rest else (k', v') :: alSet rest k v

/-- `del dict[k]`: drop every entry with key `k`. -/
def alDel {K V : Type} [DecidableEq K] (d : List (K × V)) (k : K) :
    List (K × V) :=
  match d with
  | [] => []
  | (k', v') :: rest =>
      if k' = k then alDel rest k else (k', v') :: alDel rest k

/-- `set.add x` on a duplicate-free list. -/
def setAdd (l : List Nat) (x : Nat) : List Nat :=
  if x ∈ l then l else l ++ [x]

/-- `set.discard x`. -/
def setDiscard (l : List Nat) (x : Nat) : List Nat :=
  l.filter (fun y => y ≠ x)

/-- Add `x` to the set stored under key `k` (creating the set if absent),
mirroring the `if k not in d: d[k] = set()` / `d[k].add(x)` idiom. -/
def dictSetAdd (d : List (String × List Nat)) (k : String) (x : Nat) :
    List (String × List Nat) :=
  alSet d k (setAdd ((alGet d k).getD []) x)

/-- Discard `x` from the set stored under key `k` and delete the key when the
set becomes empty, mirroring `d[k].discard(x)` / `if not d[k]: del d[k]`. -/
def dictSetDiscard (d : List (String × List Nat)) (k : String) (x : Nat) :
    List (String × List Nat) :=
  match alGet d k with
  | none => d
  | some l =>
      let l' := setDiscard l x
      if l' = [] then alDel d k else alSet d k l'

/-- The identity attached to a connection: `user_info` in `manager.py`. -/
structure ConnInfo where
  user_id : Option String
  groups : List String
deriving DecidableEq

/-- The three indexes of `NotificationManager` (`manager.py` lines 13-21):
connections by user, connections by group, and the identity back-reference. -/
structure ManagerState where
  userConns : List (String × List Nat)
  groupConns : List (String × List Nat)
  connInfo : List (Nat × ConnInfo)
deriving DecidableEq

/-- The state of a freshly constructed `NotificationManager`. -/
def initState : ManagerState := ⟨[], [], []⟩

/-- The registration part of `NotificationManager.connect`
(`manager.py` lines 27-43): record the identity, index by user when the
user id is truthy, index by every group. -/
def connectReg (s : ManagerState) (ws : Nat) (info : ConnInfo) : ManagerState :=
  let s1 : ManagerState := { s with connInfo := alSet s.connInfo ws info }
  let s2 : ManagerState :=
    match info.user_id with
    | some uid => { s1 with userConns := dictSetAdd s1.userConns uid ws }
    | none => s1
  info.groups.foldl
    (fun st g => { st with groupConns := dictSetAdd st.groupConns g ws }) s2

/-- `NotificationManager.disconnect` (`manager.py` lines 55-80): look up the
recorded identity (no-op when absent), remove the handle from that identity's
user index and group indexes, then delete the identity entry. -/
def disconnect (s : ManagerState) (ws : Nat) : ManagerState :=
  match alGet s.connInfo ws with
  | none => s
  | some info =>
      let s1 : ManagerState :=
        match info.user_id with
        | some uid => { s with userConns := dictSetDiscard s.userConns uid ws }
        | none => s
      let s2 : ManagerState :=
        info.groups.foldl
          (fun st g => { st with groupConns := dictSetDiscard st.groupConns g ws })
          s1
      { s2 with connInfo := alDel s2.connInfo ws }

/-- Membership of `x` in the set stored under key `k` of a dict of sets. -/
def dmem (d : List (String × List Nat)) (k : String) (x : Nat) : Bool :=
  match alGet d k with
  | none => false
  | some l => decide (x ∈ l)

/-- Membership of handle `ws` in the user index under `u`. -/
def memUser (s : ManagerState) (u : String) (ws : Nat) : Bool :=
  dmem s.userConns u ws

/-- Membership of handle `ws` in the group index under `g`. -/
def memGroup (s : ManagerState) (g : String) (ws : Nat) : Bool :=
  dmem s.groupConns g ws

/-- The handle is simultaneously absent from the user index, from every
group index, and from the identity back-reference. -/
def absentEverywhere (s : ManagerState) (ws : Nat) : Prop :=
  (∀ u, memUser s u ws = false) ∧ (∀ g, memGroup s g ws = false) ∧
    alGet s.connInfo ws = none

/-- The user-index entry for `ws` is backed by its recorded identity. -/
def userBacked (s : ManagerState) (u : String) (ws : Nat) : Bool :=
  match alGet s.connInfo ws with
  | some info => info.user_id = some u
  | none => false

/-- The group-index entry for `ws` is backed by its recorded identity. -/
def groupBacked (s : ManagerState) (g : String) (ws : Nat) : Bool :=
  match alGet s.connInfo ws with
  | some info => g ∈ info.groups
  | none => false

/-- Keys of an association list are duplicate-free. -/
def NodupKeys {K V : Type} (d : List (K × V)) : Prop :=
  (d.map Prod.fst).Nodup

/-- The §3 data-model invariant of the registry: every index entry is backed
by the identity back-reference, index sets are nonempty (empty sets are
deleted with their key), and dict keys are unique. -/
def RegInv (s : ManagerState) : Prop :=
  (∀ p ∈ s.userConns, ∀ ws ∈ (alGet s.userConns p.1).getD [],
      userBacked s p.1 ws = true) ∧
  (∀ p ∈ s.groupConns, ∀ ws ∈ (alGet s.groupConns p.1).getD [],
      groupBacked s p.1 ws = true) ∧
  (∀ p ∈ s.userConns, p.2 ≠ []) ∧
  (∀ p ∈ s.groupConns, p.2 ≠ []) ∧
  NodupKeys s.userConns ∧ NodupKeys s.groupConns ∧ NodupKeys s.connInfo

instance {K V : Type} [DecidableEq K] (d : List (K × V)) :
    Decidable (NodupKeys d) := by
  unfold NodupKeys; infer_instance

instance (s : ManagerState) : Decidable (RegInv s) := by
  unfold RegInv NodupKeys; infer_instance

/-- One registry operation. -/
inductive Op where
  | connect (ws : Nat) (info : ConnInfo)
  | disconnect (ws : Nat)

/-- Apply one operation (connect = its registration effect on the indexes). -/
def applyOp (s : ManagerState) : Op → ManagerState
  | .connect ws info => connectReg s ws info
  | .disconnect ws => disconnect s ws

/-- Run a sequence of operations. -/
def applyOps (s : ManagerState) : List Op → ManagerState
  | [] => s
  | op :: rest => applyOps (applyOp s op) rest

/-- A sequence is fresh when every connect targets a handle that is not
currently registered in the identity back-reference. -/
def freshSeq (s : ManagerState) : List Op → Prop
  | [] => True
  | .connect ws info :: rest =>
      alGet s.connInfo ws = none ∧ freshSeq (connectReg s ws info) rest
  | .disconnect ws :: rest => freshSeq (disconnect s ws) rest

instance freshSeqDecidable (s : ManagerState) (ops : List Op) :
    Decidable (freshSeq s ops) :=
  match ops with
  | [] => .isTrue trivial
  | .connect ws info :: rest =>
      have : Decidable (freshSeq (connectReg s ws info) rest) :=
        freshSeqDecidable _ rest
      instDecidableAnd
  | .disconnect ws :: rest => freshSeqDecidable (disconnect s ws) rest

/-- `NotificationManager.send_to_user` (`manager.py` lines 90-122), with the
per-handle transport outcome supplied by `failsOn`: early return when the user
has no entry; otherwise attempt a write to every handle of the user, catch
each failure, and disconnect the failed handles after the loop. The result
carries the handles actually written; the surrounding `try`/`except` of the
loop body means no error is ever produced. -/
def send_to_user (s : ManagerState) (uid : String) (failsOn : Nat → Bool) :
    Except String (List Nat × ManagerState) :=
  match alGet s.userConns uid with
  | none => .ok ([], s)
  | some conns =>
      let written := conns.filter (fun ws => !(failsOn ws))
      let dead := conns.filter (fun ws => failsOn ws)
      .ok (written, dead.foldl (fun st ws => disconnect st ws) s)

/-- The handles `NotificationManager.broadcast` (`manager.py` lines 156-174)
attempts to write to: every handle of every user-index entry whose user is
not excluded. -/
def broadcastWrites (s : ManagerState) (exclude : List String) : List Nat :=
  (s.userConns.filter (fun p => !(exclude.contains p.1))).flatMap
    (fun p => p.2)

/-- The connection acknowledgement sent by `connect`
(`manager.py` lines 48-53). -/
structure Ack where
  type : String
  status : String
  user_id : Option String
  timestamp : ℚ
deriving DecidableEq

/-- `NotificationManager.connect` (`manager.py` lines 23-53): register the
handle, then send the acknowledgement through `_send_to_websocket`
(lines 82-88), which catches any write failure and disconnects the handle.
`ackFails` is the transport outcome of the acknowledgement write; the result
records the acknowledgement actually delivered (if any) and the final state.
Because the failure is caught, no `Except.error` is ever produced. -/
def connect (s : ManagerState) (ws : Nat) (info : ConnInfo) (now : ℚ)
    (ackFails : Bool) : Except String (Option Ack × ManagerState) :=
  let s1 := connectReg s ws info
  if ackFails then .ok (none, disconnect s1 ws)
  else .ok (some ⟨"connection", "connected", info.user_id, now⟩, s1)

/-- Whether an `Except` result is an uncaught error. -/
def isError {ε α : Type} : Except ε α → Bool
  | .error _ => true
  | .ok _ => false

/-- The per-key token-bucket state of `InMemoryRateLimiter`
(`rate_limit.py` lines 27-29): tokens remaining and the last refill time. -/
structure Bucket where
  tokens : ℚ
  last_refill : ℚ
deriving DecidableEq

namespace InMemoryRateLimiter

/-- `InMemoryRateLimiter.is_allowed` (`rate_limit.py` lines 31-65) for one
key, at clock reading `now`: initialize a missing bucket to
`max_calls - 1` tokens and allow; otherwise refill by
`elapsed * max_calls / period` capped at `max_calls`, then allow and spend a
token when at least one token is available. -/
def is_allowed (b : Option Bucket) (now : ℚ) (max_calls period : ℕ) :
    Bool × Bucket :=
  match b with
  | none => (true, ⟨(max_calls : ℚ) - 1, now⟩)
  | some bk =>
      let elapsed := now - bk.last_refill
      let tokens :=
        min (max_calls : ℚ) (bk.tokens + elapsed * ((max_calls : ℚ) / (period : ℚ)))
      if 1 ≤ tokens then (true, ⟨tokens - 1, now⟩)
      else (false, ⟨tokens, now⟩)

/-- Run a sequence of checks on one key, the clock reading each call's
`time.time()`; collect the returned booleans and the final bucket. -/
def runCalls (b : Option Bucket) (max_calls period : ℕ) :
    List ℚ → List Bool × Option Bucket
  | [] => ([], b)
  | now :: rest =>
      let r := is_allowed b now max_calls period
      let rec' := runCalls (some r.2) max_calls period rest
      (r.1 :: rec'.1, rec'.2)

end InMemoryRateLimiter

/-- The token-count invariant of the §3 data model for a bucket that exists. -/
def bucketInv (max_calls : ℕ) : Option Bucket → Prop
  | none => True
  | some bk => 0 ≤ bk.tokens ∧ bk.tokens ≤ (max_calls : ℚ)

instance (m : ℕ) (b : Option Bucket) : Decidable (bucketInv m b) := by
  unfold bucketInv; cases b <;> infer_instance

namespace RedisRateLimiter

/-- One `RedisRateLimiter.is_allowed` round trip (`rate_limit.py` lines
104-124) on the sorted set of a key, given the stored timestamps:
`zremrangebyscore key 0 (now - period)` drops scores in `[0, now - period]`,
`zcard` counts the remainder, `zadd key {str(now): now}` inserts the current
time (a set insert: the member is determined by the score), `expire` resets
the TTL to `period`. Allowed iff the pre-insert count is below `max_calls`. -/
def is_allowed (entries : List ℚ) (now : ℚ) (max_calls period : ℕ) :
    Bool × List ℚ × ℕ :=
  let windowStart := now - (period : ℚ)
  let remaining :=
    entries.filter (fun t => !(decide (0 ≤ t) && decide (t ≤ windowStart)))
  let current_count := remaining.length
  let entries' := if now ∈ remaining then remaining else remaining ++ [now]
  (current_count < max_calls, entries', period)

/-- `RedisRateLimiter.is_allowed` including the surrounding `try`/`except`
(`rate_limit.py` lines 104-128): the store interaction either yields the
stored timestamps or raises; any raise is caught and the request allowed. -/
def is_allowed_fallible (store : Except String (List ℚ)) (now : ℚ)
    (max_calls period : ℕ) : Bool :=
  match store with
  | .error _ => true
  | .ok entries => (is_allowed entries now max_calls period).1

end RedisRateLimiter

/-- A Python value as it appears in a rate-limit configuration mapping. -/
inductive Val where
  | vint (n : Int)
  | vstr (s : String)
  | vdict (entries : List (String × Val))
  | vnone

/-- Parse a nonempty run of decimal digits. -/
def natOfDigits : List Char → Nat → Option Nat
  | [], acc => some acc
  | c :: rest, acc =>
      if c.isDigit then natOfDigits rest (acc * 10 + (c.toNat - 48))
      else none

/-- Python `int` applied to a string: an optional sign followed by digits
parses, anything else raises `ValueError`. -/
def pyStrToInt (s : String) : Option Int :=
  match s.data with
  | [] => none
  | '-' :: rest =>
      match rest with
      | [] => none
      | _ => (natOfDigits rest 0).map (fun n => -(n : Int))
  | cs => (natOfDigits cs 0).map (fun n => (n : Int))

/-- Python `int(x)`: an `int` is itself, a string parses or raises
`ValueError`, anything else raises `TypeError`. -/
def pyInt : Val → Except String Int
  | .vint n => .ok n
  | .vstr s =>
      match pyStrToInt s with
      | some n => .ok n
      | none => .error "ValueError"
  | .vdict _ => .error "TypeError"
  | .vnone => .error "TypeError"

/-- `RateLimitConfig._load_config` (`rate_limit.py` lines 147-157) over the
`rate_limits` mapping: an entry is taken when it is a dict containing both
the `calls` and `period` keys, in which case `int(...)` is applied to both
values — an `int` conversion failure is uncaught and aborts the whole load.
Returns the accumulated limits and the `enabled` flag. -/
def load_config (rateLimits : List (String × Val)) :
    Except String (List (String × (Int × Int)) × Bool) :=
  go rateLimits [] false
where
  /-- The loop of `_load_config`, carrying `self.limits` and `self.enabled`. -/
  go : List (String × Val) → List (String × (Int × Int)) → Bool →
      Except String (List (String × (Int × Int)) × Bool)
  | [], limits, enabled => .ok (limits, enabled)
  | (name, v) :: rest, limits, enabled =>
      match v with
      | .vdict d =>
          if (alGet d "calls").isSome ∧ (alGet d "period").isSome then
            match pyInt ((alGet d "calls").getD .vnone) with
            | .error e => .error e
            | .ok calls =>
                match pyInt ((alGet d "period").getD .vnone) with
                | .error e => .error e
                | .ok period =>
                    go rest (alSet limits name (calls, period)) true
          else go rest limits enabled
      | _ => go rest limits enabled

/-- `NotificationManager.register_handler` (`manager.py` lines 226-228);
handlers are identified by number. -/
def register_handler (handlers : List (String × Nat)) (t : String) (h : Nat) :
    List (String × Nat) :=
  alSet handlers t h

/-- `NotificationManager.handle_message` (`manager.py` lines 230-246),
restricted to its observable outcome: the reply written to the sender (type
and echoed timestamp field) and the custom handler invoked, if any. A
`"ping"` message is answered with a `"pong"` echoing `message.get("timestamp")`
and returns before the custom-handler lookup. -/
def handle_message (handlers : List (String × Nat)) (msgType : String)
    (ts : Option Val) : Option (String × Option Val) × Option Nat :=
  if msgType = "ping" then (some ("pong", ts), none)
  else (none, alGet handlers msgType)



/-- A registry with one user owning two handles, used to exercise the
dispatch paths on a concrete state. -/
def pairState : ManagerState :=
  applyOps initState [Op.connect 1 ⟨some "u", []⟩, Op.connect 2 ⟨some "u", []⟩]

/-- A registry with two users owning one handle each. -/
def twoUserState : ManagerState :=
  applyOps initState [Op.connect 1 ⟨some "u", []⟩, Op.connect 2 ⟨some "v", []⟩]

/-! ### Association-list lemmas -/

theorem alGet_alSet {K V : Type} [DecidableEq K] (d : List (K × V)) (k : K)
    (v : V) (k' : K) :
    alGet (alSet d k v) k' = if k = k' then some v else alGet d k' := by
  induction d with
  | nil => simp [alGet, alSet]
  | cons hd tl ih =>
      obtain ⟨a, b⟩ := hd
      by_cases hak : a = k
      · subst hak
        simp only [alSet, if_pos rfl, alGet]
        by_cases hk : a = k' <;> simp [hk]
      · simp only [alSet, if_neg hak, alGet]
        by_cases hak' : a = k'
        · subst hak'
          have : ¬ k = a := fun h => hak h.symm
          simp [this]
        · simp [hak', ih]

theorem alGet_alDel {K V : Type} [DecidableEq K] (d : List (K × V)) (k : K)
    (k' : K) :
    alGet (alDel d k) k' = if k = k' then none else alGet d k' := by
  induction d with
  | nil => simp [alGet, alDel]
  | cons hd tl ih =>
      obtain ⟨a, b⟩ := hd
      by_cases hak : a = k
      · subst hak
        by_cases hk : a = k'
        · subst hk; simp [alDel, ih]
        · simp [alDel, alGet, ih, hk]
      · by_cases hak' : a = k'
        · subst hak'
          have hne : ¬ k = a := fun h => hak h.symm
          simp [alDel, alGet, hak, hne]
        · simp [alDel, alGet, hak, hak', ih]

theorem alGet_mem {K V : Type} [DecidableEq K] {d : List (K × V)} {k : K}
    {v : V} (h : alGet d k = some v) : (k, v) ∈ d := by
  induction d with
  | nil => simp [alGet] at h
  | cons hd tl ih =>
      obtain ⟨a, b⟩ := hd
      simp only [alGet] at h
      split at h
      · rename_i heq
        injection h with hbv
        subst heq; subst hbv
        exact List.mem_cons_self _ _
      · exact List.mem_cons_of_mem _ (ih h)

theorem alGet_isSome_of_mem {K V : Type} [DecidableEq K] {d : List (K × V)}
    {p : K × V} (h : p ∈ d) : ∃ v, alGet d p.1 = some v := by
  induction d with
  | nil => simp at h
  | cons hd tl ih =>
      obtain ⟨a, b⟩ := hd
      rcases List.mem_cons.1 h with h1 | h2
      · subst h1; exact ⟨b, by simp [alGet]⟩
      · by_cases hak : a = p.1
        · exact ⟨b, by simp [alGet, hak]⟩
        · obtain ⟨v, hv⟩ := ih h2
          exact ⟨v, by simp [alGet, hak, hv]⟩

theorem mem_alSet {K V : Type} [DecidableEq K] {d : List (K × V)} {k : K}
    {v : V} {p : K × V} (h : p ∈ alSet d k v) : p ∈ d ∨ p = (k, v) := by
  induction d with
  | nil => simp [alSet] at h; right; exact h
  | cons hd tl ih =>
      obtain ⟨a, b⟩ := hd
      by_cases hak : a = k
      · subst hak
        simp only [alSet, if_pos rfl] at h
        rcases List.mem_cons.1 h with h1 | h2
        · right; exact h1
        · left; exact List.mem_cons_of_mem _ h2
      · simp only [alSet, if_neg hak] at h
        rcases List.mem_cons.1 h with h1 | h2
        · left; subst h1; exact List.mem_cons_self _ _
        · rcases ih h2 with h3 | h4
          · left; exact List.mem_cons_of_mem _ h3
          · right; exact h4

theorem alDel_sublist {K V : Type} [DecidableEq K] (d : List (K × V))
    (k : K) : (alDel d k).Sublist d := by
  induction d with
  | nil => simp [alDel]
  | cons hd tl ih =>
      obtain ⟨a, b⟩ := hd
      by_cases hak : a = k
      · rw [show alDel ((a, b) :: tl) k = alDel tl k from by simp [alDel, hak]]
        exact List.Sublist.cons (a, b) ih
      · rw [show alDel ((a, b) :: tl) k = (a, b) :: alDel tl k from by
          simp [alDel, hak]]
        exact List.Sublist.cons₂ (a, b) ih

theorem mem_alDel {K V : Type} [DecidableEq K] {d : List (K × V)} {k : K}
    {p : K × V} (h : p ∈ alDel d k) : p ∈ d :=
  (alDel_sublist d k).mem h

theorem keys_alSet {K V : Type} [DecidableEq K] {d : List (K × V)} {k : K}
    {v : V} {q : K} (h : q ∈ (alSet d k v).map Prod.fst) :
    q ∈ d.map Prod.fst ∨ q = k := by
  rcases List.mem_map.1 h with ⟨p, hp, hq⟩
  rcases mem_alSet hp with h1 | h2
  · left; exact List.mem_map.2 ⟨p, h1, hq⟩
  · right; subst h2; exact hq.symm

theorem nodupKeys_alSet {K V : Type} [DecidableEq K] {d : List (K × V)}
    (k : K) (v : V) (h : NodupKeys d) : NodupKeys (alSet d k v) := by
  induction d with
  | nil => simp [alSet, NodupKeys]
  | cons hd tl ih =>
      obtain ⟨a, b⟩ := hd
      unfold NodupKeys at h
      simp only [List.map_cons, List.nodup_cons] at h
      by_cases hak : a = k
      · subst hak
        rw [show alSet ((a, b) :: tl) a v = (a, v) :: tl from by simp [alSet]]
        unfold NodupKeys
        simp only [List.map_cons, List.nodup_cons]
        exact h
      · rw [show alSet ((a, b) :: tl) k v = (a, b) :: alSet tl k v from by
          simp [alSet, hak]]
        unfold NodupKeys
        simp only [List.map_cons, List.nodup_cons]
        refine ⟨?_, ih h.2⟩
        intro hmem
        rcases keys_alSet hmem with h1 | h2
        · exact h.1 h1
        · exact hak h2

theorem nodupKeys_alDel {K V : Type} [DecidableEq K] {d : List (K × V)}
    (k : K) (h : NodupKeys d) : NodupKeys (alDel d k) :=
  ((alDel_sublist d k).map Prod.fst).nodup h

/-! ### Set and dict-of-sets lemmas -/

theorem mem_setAdd {l : List Nat} {x y : Nat} :
    y ∈ setAdd l x ↔ y ∈ l ∨ y = x := by
  unfold setAdd
  by_cases hx : x ∈ l
  · simp only [if_pos hx]
    constructor
    · exact Or.inl
    · rintro (h | rfl)
      · exact h
      · exact hx
  · simp [if_neg hx]

theorem setAdd_ne_nil (l : List Nat) (x : Nat) : setAdd l x ≠ [] := by
  unfold setAdd
  by_cases hx : x ∈ l
  · simp only [if_pos hx]
    rintro rfl; simp at hx
  · simp [if_neg hx]

theorem mem_setDiscard {l : List Nat} {x y : Nat} :
    y ∈ setDiscard l x ↔ y ∈ l ∧ y ≠ x := by
  unfold setDiscard
  simp

theorem dmem_iff {d : List (String × List Nat)} {k : String} {x : Nat} :
    dmem d k x = true ↔ ∃ l, alGet d k = some l ∧ x ∈ l := by
  unfold dmem
  cases h : alGet d k with
  | none => simp
  | some l => simp

theorem dmem_getD (d : List (String × List Nat)) (k : String) (y : Nat) :
    dmem d k y = decide (y ∈ (alGet d k).getD []) := by
  unfold dmem
  cases alGet d k <;> simp

theorem dmem_dictSetAdd {d : List (String × List Nat)} {k k' : String}
    {x y : Nat} :
    dmem (dictSetAdd d k x) k' y = true ↔
      dmem d k' y = true ∨ (k = k' ∧ y = x) := by
  rw [dmem_getD, dmem_getD]
  unfold dictSetAdd
  rw [alGet_alSet]
  by_cases hk : k = k'
  · rw [if_pos hk]
    subst hk
    simp only [Option.getD_some, decide_eq_true_eq]
    constructor
    · intro h
      rcases mem_setAdd.1 h with h1 | h2
      · exact Or.inl h1
      · exact Or.inr ⟨trivial, h2⟩
    · rintro (h1 | ⟨-, h2⟩)
      · exact mem_setAdd.2 (Or.inl h1)
      · exact mem_setAdd.2 (Or.inr h2)
  · rw [if_neg hk]
    constructor
    · exact Or.inl
    · rintro (h1 | ⟨h2, -⟩)
      · exact h1
      · exact absurd h2 hk

theorem dmem_dictSetDiscard {d : List (String × List Nat)} {k k' : String}
    {x y : Nat} :
    dmem (dictSetDiscard d k x) k' y = true ↔
      dmem d k' y = true ∧ ¬(k = k' ∧ y = x) := by
  cases hget : alGet d k with
  | none =>
      have hd : dictSetDiscard d k x = d := by
        unfold dictSetDiscard; rw [hget]
      rw [hd]
      constructor
      · intro h
        refine ⟨h, ?_⟩
        rintro ⟨hkk, hyx⟩
        subst hkk
        rw [dmem_getD, hget] at h
        simp at h
      · exact fun h => h.1
  | some l =>
      by_cases hnil : setDiscard l x = []
      · have hd : dictSetDiscard d k x = alDel d k := by
          unfold dictSetDiscard; rw [hget]; simp [hnil]
        rw [hd, dmem_getD, dmem_getD, alGet_alDel]
        by_cases hk : k = k'
        · rw [if_pos hk]
          subst hk
          rw [hget]
          simp only [Option.getD_none, Option.getD_some, decide_eq_true_eq]
          constructor
          · intro h
            simp at h
          · rintro ⟨hmem, hne⟩
            exfalso
            have hmem' : y ∈ setDiscard l x :=
              mem_setDiscard.2 ⟨hmem, fun hyx => hne ⟨trivial, hyx⟩⟩
            rw [hnil] at hmem'
            simp at hmem'
        · rw [if_neg hk]
          constructor
          · intro h
            exact ⟨h, fun hc => hk hc.1⟩
          · exact fun h => h.1
      · have hd : dictSetDiscard d k x = alSet d k (setDiscard l x) := by
          unfold dictSetDiscard; rw [hget]; simp [hnil]
        rw [hd, dmem_getD, dmem_getD, alGet_alSet]
        by_cases hk : k = k'
        · rw [if_pos hk]
          subst hk
          rw [hget]
          simp only [Option.getD_some, decide_eq_true_eq]
          rw [mem_setDiscard]
          constructor
          · rintro ⟨h1, h2⟩
            exact ⟨h1, fun hc => h2 hc.2⟩
          · rintro ⟨h1, h2⟩
            exact ⟨h1, fun hyx => h2 ⟨trivial, hyx⟩⟩
        · rw [if_neg hk]
          constructor
          · intro h
            exact ⟨h, fun hc => hk hc.1⟩
          · exact fun h => h.1

/-! ### Fold lemmas for the group-index updates -/

theorem foldAdd_state (ws : Nat) :
    ∀ (gl : List String) (st : ManagerState),
      gl.foldl (fun st g => { st with groupConns := dictSetAdd st.groupConns g ws }) st
        = { st with
            groupConns := gl.foldl (fun d g => dictSetAdd d g ws) st.groupConns } := by
  intro gl
  induction gl with
  | nil => intro st; rfl
  | cons g rest ih =>
      intro st
      simp only [List.foldl_cons]
      rw [ih]

theorem foldDiscard_state (ws : Nat) :
    ∀ (gl : List String) (st : ManagerState),
      gl.foldl
          (fun st g => { st with groupConns := dictSetDiscard st.groupConns g ws }) st
        = { st with
            groupConns :=
              gl.foldl (fun d g => dictSetDiscard d g ws) st.groupConns } := by
  intro gl
  induction gl with
  | nil => intro st; rfl
  | cons g rest ih =>
      intro st
      simp only [List.foldl_cons]
      rw [ih]

theorem dmem_foldAdd (x : Nat) :
    ∀ (gl : List String) (d : List (String × List Nat)) (k : String) (y : Nat),
      dmem (gl.foldl (fun d g => dictSetAdd d g x) d) k y = true ↔
        dmem d k y = true ∨ (k ∈ gl ∧ y = x) := by
  intro gl
  induction gl with
  | nil => intro d k y; simp
  | cons g rest ih =>
      intro d k y
      simp only [List.foldl_cons]
      rw [ih]
      rw [dmem_dictSetAdd]
      constructor
      · rintro ((h1 | ⟨h2, h3⟩) | ⟨h4, h5⟩)
        · exact Or.inl h1
        · exact Or.inr ⟨by rw [← h2]; exact List.mem_cons_self _ _, h3⟩
        · exact Or.inr ⟨List.mem_cons_of_mem _ h4, h5⟩
      · rintro (h1 | ⟨h4, h5⟩)
        · exact Or.inl (Or.inl h1)
        · rcases List.mem_cons.1 h4 with h6 | h7
          · exact Or.inl (Or.inr ⟨h6.symm, h5⟩)
          · exact Or.inr ⟨h7, h5⟩

theorem dmem_foldDiscard (x : Nat) :
    ∀ (gl : List String) (d : List (String × List Nat)) (k : String) (y : Nat),
      dmem (gl.foldl (fun d g => dictSetDiscard d g x) d) k y = true ↔
        dmem d k y = true ∧ ¬(k ∈ gl ∧ y = x) := by
  intro gl
  induction gl with
  | nil => intro d k y; simp
  | cons g rest ih =>
      intro d k y
      simp only [List.foldl_cons]
      rw [ih]
      rw [dmem_dictSetDiscard]
      constructor
      · rintro ⟨⟨h1, h2⟩, h3⟩
        refine ⟨h1, ?_⟩
        rintro ⟨h4, h5⟩
        rcases List.mem_cons.1 h4 with h6 | h7
        · exact h2 ⟨h6.symm, h5⟩
        · exact h3 ⟨h7, h5⟩
      · rintro ⟨h1, h2⟩
        refine ⟨⟨h1, ?_⟩, ?_⟩
        · rintro ⟨h3, h4⟩
          exact h2 ⟨by rw [← h3]; exact List.mem_cons_self _ _, h4⟩
        · rintro ⟨h3, h4⟩
          exact h2 ⟨List.mem_cons_of_mem _ h3, h4⟩

/-! ### Effect of connect and disconnect on the three indexes -/

theorem connectReg_userConns (s : ManagerState) (ws : Nat) (info : ConnInfo) :
    (connectReg s ws info).userConns =
      match info.user_id with
      | some uid => dictSetAdd s.userConns uid ws
      | none => s.userConns := by
  unfold connectReg
  rw [foldAdd_state]
  cases info.user_id <;> rfl

theorem connectReg_groupConns (s : ManagerState) (ws : Nat) (info : ConnInfo) :
    (connectReg s ws info).groupConns =
      info.groups.foldl (fun d g => dictSetAdd d g ws) s.groupConns := by
  unfold connectReg
  rw [foldAdd_state]
  cases info.user_id <;> rfl

theorem connectReg_connInfo (s : ManagerState) (ws : Nat) (info : ConnInfo) :
    (connectReg s ws info).connInfo = alSet s.connInfo ws info := by
  unfold connectReg
  rw [foldAdd_state]
  cases info.user_id <;> rfl

theorem disconnect_userConns {s : ManagerState} {ws : Nat} {info : ConnInfo}
    (hinfo : alGet s.connInfo ws = some info) :
    (disconnect s ws).userConns =
      match info.user_id with
      | some uid => dictSetDiscard s.userConns uid ws
      | none => s.userConns := by
  unfold disconnect
  rw [hinfo]
  simp only []
  rw [foldDiscard_state]
  cases info.user_id <;> rfl

theorem disconnect_groupConns {s : ManagerState} {ws : Nat} {info : ConnInfo}
    (hinfo : alGet s.connInfo ws = some info) :
    (disconnect s ws).groupConns =
      info.groups.foldl (fun d g => dictSetDiscard d g ws) s.groupConns := by
  unfold disconnect
  rw [hinfo]
  simp only []
  rw [foldDiscard_state]
  cases info.user_id <;> rfl

theorem disconnect_connInfo {s : ManagerState} {ws : Nat} {info : ConnInfo}
    (hinfo : alGet s.connInfo ws = some info) :
    (disconnect s ws).connInfo = alDel s.connInfo ws := by
  unfold disconnect
  rw [hinfo]
  simp only []
  rw [foldDiscard_state]
  cases info.user_id <;> rfl

theorem disconnect_of_none {s : ManagerState} {ws : Nat}
    (h : alGet s.connInfo ws = none) : disconnect s ws = s := by
  unfold disconnect
  rw [h]

theorem memUser_connectReg {s : ManagerState} {ws : Nat} {info : ConnInfo}
    {u : String} {y : Nat} :
    memUser (connectReg s ws info) u y = true ↔
      memUser s u y = true ∨ (info.user_id = some u ∧ y = ws) := by
  unfold memUser
  rw [connectReg_userConns]
  cases huid : info.user_id with
  | none => simp
  | some uid =>
      simp only []
      rw [dmem_dictSetAdd]
      constructor
      · rintro (h1 | ⟨h2, h3⟩)
        · exact Or.inl h1
        · exact Or.inr ⟨by rw [h2], h3⟩
      · rintro (h1 | ⟨h2, h3⟩)
        · exact Or.inl h1
        · injection h2 with h2'
          exact Or.inr ⟨h2', h3⟩

theorem memGroup_connectReg {s : ManagerState} {ws : Nat} {info : ConnInfo}
    {g : String} {y : Nat} :
    memGroup (connectReg s ws info) g y = true ↔
      memGroup s g y = true ∨ (g ∈ info.groups ∧ y = ws) := by
  unfold memGroup
  rw [connectReg_groupConns]
  exact dmem_foldAdd ws info.groups s.groupConns g y

theorem alGet_connectReg_connInfo (s : ManagerState) (ws : Nat)
    (info : ConnInfo) (w : Nat) :
    alGet (connectReg s ws info).connInfo w =
      if ws = w then some info else alGet s.connInfo w := by
  rw [connectReg_connInfo]
  exact alGet_alSet s.connInfo ws info w

theorem memUser_disconnect {s : ManagerState} {ws : Nat} {info : ConnInfo}
    (hinfo : alGet s.connInfo ws = some info) {u : String} {y : Nat} :
    memUser (disconnect s ws) u y = true ↔
      memUser s u y = true ∧ ¬(info.user_id = some u ∧ y = ws) := by
  unfold memUser
  rw [disconnect_userConns hinfo]
  cases huid : info.user_id with
  | none =>
      simp only []
      constructor
      · intro h
        exact ⟨h, fun hc => Option.noConfusion hc.1⟩
      · exact fun h => h.1
  | some uid =>
      simp only []
      rw [dmem_dictSetDiscard]
      constructor
      · rintro ⟨h1, h2⟩
        refine ⟨h1, ?_⟩
        rintro ⟨h3, h4⟩
        injection h3 with h3'
        exact h2 ⟨h3', h4⟩
      · rintro ⟨h1, h2⟩
        refine ⟨h1, ?_⟩
        rintro ⟨h3, h4⟩
        exact h2 ⟨by rw [h3], h4⟩

theorem memGroup_disconnect {s : ManagerState} {ws : Nat} {info : ConnInfo}
    (hinfo : alGet s.connInfo ws = some info) {g : String} {y : Nat} :
    memGroup (disconnect s ws) g y = true ↔
      memGroup s g y = true ∧ ¬(g ∈ info.groups ∧ y = ws) := by
  unfold memGroup
  rw [disconnect_groupConns hinfo]
  exact dmem_foldDiscard ws info.groups s.groupConns g y

theorem alGet_disconnect_connInfo {s : ManagerState} {ws : Nat}
    {info : ConnInfo} (hinfo : alGet s.connInfo ws = some info) (w : Nat) :
    alGet (disconnect s ws).connInfo w =
      if ws = w then none else alGet s.connInfo w := by
  rw [disconnect_connInfo hinfo]
  exact alGet_alDel s.connInfo ws w

theorem disconnect_idem (s : ManagerState) (ws : Nat) :
    disconnect (disconnect s ws) ws = disconnect s ws := by
  cases hinfo : alGet s.connInfo ws with
  | none => rw [disconnect_of_none hinfo, disconnect_of_none hinfo]
  | some info =>
      apply disconnect_of_none
      rw [alGet_disconnect_connInfo hinfo]
      simp

/-! ### Entry-level preservation lemmas -/

theorem ne_nil_entries_dictSetAdd {d : List (String × List Nat)} {k : String}
    {x : Nat} (h : ∀ q ∈ d, q.2 ≠ []) :
    ∀ p ∈ dictSetAdd d k x, p.2 ≠ [] := by
  intro p hp
  rcases mem_alSet hp with h1 | h2
  · exact h p h1
  · rw [h2]
    exact setAdd_ne_nil _ _

theorem ne_nil_entries_dictSetDiscard {d : List (String × List Nat)}
    {k : String} {x : Nat} (h : ∀ q ∈ d, q.2 ≠ []) :
    ∀ p ∈ dictSetDiscard d k x, p.2 ≠ [] := by
  intro p hp
  unfold dictSetDiscard at hp
  cases hget : alGet d k with
  | none => rw [hget] at hp; exact h p hp
  | some l =>
      rw [hget] at hp
      simp only [] at hp
      by_cases hnil : setDiscard l x = []
      · rw [if_pos hnil] at hp
        exact h p (mem_alDel hp)
      · rw [if_neg hnil] at hp
        rcases mem_alSet hp with h1 | h2
        · exact h p h1
        · rw [h2]
          exact hnil

theorem ne_nil_entries_foldAdd {x : Nat} :
    ∀ (gl : List String) (d : List (String × List Nat)),
      (∀ q ∈ d, q.2 ≠ []) →
        ∀ p ∈ gl.foldl (fun d g => dictSetAdd d g x) d, p.2 ≠ [] := by
  intro gl
  induction gl with
  | nil => intro d h; exact h
  | cons g rest ih =>
      intro d h
      simp only [List.foldl_cons]
      exact ih _ (ne_nil_entries_dictSetAdd h)

theorem ne_nil_entries_foldDiscard {x : Nat} :
    ∀ (gl : List String) (d : List (String × List Nat)),
      (∀ q ∈ d, q.2 ≠ []) →
        ∀ p ∈ gl.foldl (fun d g => dictSetDiscard d g x) d, p.2 ≠ [] := by
  intro gl
  induction gl with
  | nil => intro d h; exact h
  | cons g rest ih =>
      intro d h
      simp only [List.foldl_cons]
      exact ih _ (ne_nil_entries_dictSetDiscard h)

theorem nodupKeys_dictSetAdd {d : List (String × List Nat)} (k : String)
    (x : Nat) (h : NodupKeys d) : NodupKeys (dictSetAdd d k x) :=
  nodupKeys_alSet k _ h

theorem nodupKeys_dictSetDiscard {d : List (String × List Nat)} (k : String)
    (x : Nat) (h : NodupKeys d) : NodupKeys (dictSetDiscard d k x) := by
  unfold dictSetDiscard
  cases hget : alGet d k with
  | none => exact h
  | some l =>
      simp only []
      by_cases hnil : setDiscard l x = []
      · rw [if_pos hnil]
        exact nodupKeys_alDel k h
      · rw [if_neg hnil]
        exact nodupKeys_alSet k _ h

theorem nodupKeys_foldAdd {x : Nat} :
    ∀ (gl : List String) (d : List (String × List Nat)),
      NodupKeys d → NodupKeys (gl.foldl (fun d g => dictSetAdd d g x) d) := by
  intro gl
  induction gl with
  | nil => intro d h; exact h
  | cons g rest ih =>
      intro d h
      simp only [List.foldl_cons]
      exact ih _ (nodupKeys_dictSetAdd g x h)

theorem nodupKeys_foldDiscard {x : Nat} :
    ∀ (gl : List String) (d : List (String × List Nat)),
      NodupKeys d →
        NodupKeys (gl.foldl (fun d g => dictSetDiscard d g x) d) := by
  intro gl
  induction gl with
  | nil => intro d h; exact h
  | cons g rest ih =>
      intro d h
      simp only [List.foldl_cons]
      exact ih _ (nodupKeys_dictSetDiscard g x h)

/-! ### The registry invariant: consequences and preservation -/

theorem regInv_memUser_backed {s : ManagerState} (hInv : RegInv s)
    {u : String} {ws : Nat} (h : memUser s u ws = true) :
    userBacked s u ws = true := by
  rcases dmem_iff.1 h with ⟨l, hl, hmem⟩
  have hpl := alGet_mem hl
  have := hInv.1 (u, l) hpl ws
  rw [hl] at this
  exact this (by simpa using hmem)

theorem regInv_memGroup_backed {s : ManagerState} (hInv : RegInv s)
    {g : String} {ws : Nat} (h : memGroup s g ws = true) :
    groupBacked s g ws = true := by
  rcases dmem_iff.1 h with ⟨l, hl, hmem⟩
  have hpl := alGet_mem hl
  have := hInv.2.1 (g, l) hpl ws
  rw [hl] at this
  exact this (by simpa using hmem)

theorem disconnect_absent {s : ManagerState} (hInv : RegInv s) (ws : Nat) :
    absentEverywhere (disconnect s ws) ws := by
  cases hinfo : alGet s.connInfo ws with
  | none =>
      rw [disconnect_of_none hinfo]
      refine ⟨fun u => ?_, fun g => ?_, hinfo⟩
      · rw [Bool.eq_false_iff]
        intro h
        have := regInv_memUser_backed hInv h
        unfold userBacked at this
        rw [hinfo] at this
        simp at this
      · rw [Bool.eq_false_iff]
        intro h
        have := regInv_memGroup_backed hInv h
        unfold groupBacked at this
        rw [hinfo] at this
        simp at this
  | some info =>
      refine ⟨fun u => ?_, fun g => ?_, ?_⟩
      · rw [Bool.eq_false_iff]
        intro h
        rcases (memUser_disconnect hinfo).1 h with ⟨h1, h2⟩
        have hb := regInv_memUser_backed hInv h1
        unfold userBacked at hb
        rw [hinfo] at hb
        exact h2 ⟨by simpa using hb, rfl⟩
      · rw [Bool.eq_false_iff]
        intro h
        rcases (memGroup_disconnect hinfo).1 h with ⟨h1, h2⟩
        have hb := regInv_memGroup_backed hInv h1
        unfold groupBacked at hb
        rw [hinfo] at hb
        exact h2 ⟨by simpa using hb, rfl⟩
      · rw [alGet_disconnect_connInfo hinfo]
        simp

theorem regInv_disconnect {s : ManagerState} (hInv : RegInv s) (ws : Nat) :
    RegInv (disconnect s ws) := by
  cases hinfo : alGet s.connInfo ws with
  | none => rw [disconnect_of_none hinfo]; exact hInv
  | some info =>
      obtain ⟨habs_u, habs_g, _⟩ := disconnect_absent hInv ws
      refine ⟨?_, ?_, ?_, ?_, ?_, ?_, ?_⟩
      · intro p hp y hy
        have hmem : memUser (disconnect s ws) p.1 y = true := by
          obtain ⟨v, hv⟩ := alGet_isSome_of_mem hp
          unfold memUser
          rw [dmem_iff]
          exact ⟨v, hv, by rw [hv] at hy; simpa using hy⟩
        have hyws : y ≠ ws := by
          intro hcontra
          subst hcontra
          rw [habs_u p.1] at hmem
          exact Bool.noConfusion hmem
        rcases (memUser_disconnect hinfo).1 hmem with ⟨h1, _⟩
        have hb := regInv_memUser_backed hInv h1
        unfold userBacked at hb ⊢
        rw [alGet_disconnect_connInfo hinfo]
        rw [if_neg (fun h => hyws h.symm)]
        exact hb
      · intro p hp y hy
        have hmem : memGroup (disconnect s ws) p.1 y = true := by
          obtain ⟨v, hv⟩ := alGet_isSome_of_mem hp
          unfold memGroup
          rw [dmem_iff]
          exact ⟨v, hv, by rw [hv] at hy; simpa using hy⟩
        have hyws : y ≠ ws := by
          intro hcontra
          subst hcontra
          rw [habs_g p.1] at hmem
          exact Bool.noConfusion hmem
        rcases (memGroup_disconnect hinfo).1 hmem with ⟨h1, _⟩
        have hb := regInv_memGroup_backed hInv h1
        unfold groupBacked at hb ⊢
        rw [alGet_disconnect_connInfo hinfo]
        rw [if_neg (fun h => hyws h.symm)]
        exact hb
      · rw [disconnect_userConns hinfo]
        cases info.user_id with
        | none => exact hInv.2.2.1
        | some uid => exact ne_nil_entries_dictSetDiscard hInv.2.2.1
      · rw [disconnect_groupConns hinfo]
        exact ne_nil_entries_foldDiscard info.groups s.groupConns hInv.2.2.2.1
      · rw [disconnect_userConns hinfo]
        cases info.user_id with
        | none => exact hInv.2.2.2.2.1
        | some uid => exact nodupKeys_dictSetDiscard uid ws hInv.2.2.2.2.1
      · rw [disconnect_groupConns hinfo]
        exact nodupKeys_foldDiscard info.groups s.groupConns hInv.2.2.2.2.2.1
      · rw [disconnect_connInfo hinfo]
        exact nodupKeys_alDel ws hInv.2.2.2.2.2.2

theorem regInv_connectReg {s : ManagerState} (hInv : RegInv s) {ws : Nat}
    (info : ConnInfo) (hfresh : alGet s.connInfo ws = none) :
    RegInv (connectReg s ws info) := by
  refine ⟨?_, ?_, ?_, ?_, ?_, ?_, ?_⟩
  · intro p hp y hy
    have hmem : memUser (connectReg s ws info) p.1 y = true := by
      obtain ⟨v, hv⟩ := alGet_isSome_of_mem hp
      unfold memUser
      rw [dmem_iff]
      exact ⟨v, hv, by rw [hv] at hy; simpa using hy⟩
    unfold userBacked
    rw [alGet_connectReg_connInfo]
    rcases memUser_connectReg.1 hmem with h1 | ⟨h2, h3⟩
    · have hb := regInv_memUser_backed hInv h1
      have hyws : ws ≠ y := by
        intro hcontra
        subst hcontra
        unfold userBacked at hb
        rw [hfresh] at hb
        exact Bool.noConfusion hb
      rw [if_neg hyws]
      unfold userBacked at hb
      exact hb
    · subst h3
      rw [if_pos rfl]
      simpa using h2
  · intro p hp y hy
    have hmem : memGroup (connectReg s ws info) p.1 y = true := by
      obtain ⟨v, hv⟩ := alGet_isSome_of_mem hp
      unfold memGroup
      rw [dmem_iff]
      exact ⟨v, hv, by rw [hv] at hy; simpa using hy⟩
    unfold groupBacked
    rw [alGet_connectReg_connInfo]
    rcases memGroup_connectReg.1 hmem with h1 | ⟨h2, h3⟩
    · have hb := regInv_memGroup_backed hInv h1
      have hyws : ws ≠ y := by
        intro hcontra
        subst hcontra
        unfold groupBacked at hb
        rw [hfresh] at hb
        exact Bool.noConfusion hb
      rw [if_neg hyws]
      unfold groupBacked at hb
      exact hb
    · subst h3
      rw [if_pos rfl]
      simpa using h2
  · rw [connectReg_userConns]
    cases info.user_id with
    | none => exact hInv.2.2.1
    | some uid => exact ne_nil_entries_dictSetAdd hInv.2.2.1
  · rw [connectReg_groupConns]
    exact ne_nil_entries_foldAdd info.groups s.groupConns hInv.2.2.2.1
  · rw [connectReg_userConns]
    cases info.user_id with
    | none => exact hInv.2.2.2.2.1
    | some uid => exact nodupKeys_dictSetAdd uid ws hInv.2.2.2.2.1
  · rw [connectReg_groupConns]
    exact nodupKeys_foldAdd info.groups s.groupConns hInv.2.2.2.2.2.1
  · rw [connectReg_connInfo]
    exact nodupKeys_alSet ws info hInv.2.2.2.2.2.2

theorem regInv_initState : RegInv initState := by
  refine ⟨?_, ?_, ?_, ?_, ?_, ?_, ?_⟩ <;> simp [initState, NodupKeys]

theorem regInv_applyOps :
    ∀ (ops : List Op) (s : ManagerState), RegInv s → freshSeq s ops →
      RegInv (applyOps s ops) := by
  intro ops
  induction ops with
  | nil => intro s hInv _; exact hInv
  | cons op rest ih =>
      intro s hInv hfresh
      cases op with
      | connect ws info =>
          exact ih _ (regInv_connectReg hInv info hfresh.1) hfresh.2
      | disconnect ws =>
          exact ih _ (regInv_disconnect hInv ws) hfresh

/-! ### Token-bucket lemmas -/

theorem is_allowed_last_refill (b : Option Bucket) (now : ℚ) (m p : ℕ) :
    (InMemoryRateLimiter.is_allowed b now m p).2.last_refill = now := by
  cases b with
  | none => rfl
  | some bk =>
      unfold InMemoryRateLimiter.is_allowed
      dsimp only
      split <;> rfl

theorem is_allowed_bucketInv (m p : ℕ) (hm : 0 < m) (b : Option Bucket)
    (hb : bucketInv m b) (now : ℚ)
    (hlast : ∀ bk, b = some bk → bk.last_refill ≤ now) :
    bucketInv m (some (InMemoryRateLimiter.is_allowed b now m p).2) := by
  cases b with
  | none =>
      have h1 : (1 : ℚ) ≤ (m : ℚ) := by exact_mod_cast hm
      unfold InMemoryRateLimiter.is_allowed bucketInv
      dsimp only
      constructor
      · linarith
      · linarith
  | some bk =>
      obtain ⟨h0, h1⟩ := hb
      have hl := hlast bk rfl
      have hd : (0 : ℚ) ≤ (now - bk.last_refill) * ((m : ℚ) / (p : ℚ)) := by
        apply mul_nonneg
        · linarith
        · positivity
      have ht0 : 0 ≤ min (m : ℚ) (bk.tokens + (now - bk.last_refill) * ((m : ℚ) / (p : ℚ))) := by
        apply le_min
        · positivity
        · linarith
      have ht1 : min (m : ℚ) (bk.tokens + (now - bk.last_refill) * ((m : ℚ) / (p : ℚ))) ≤ (m : ℚ) :=
        min_le_left _ _
      unfold InMemoryRateLimiter.is_allowed bucketInv
      dsimp only
      split
      · next hge =>
          constructor
          · dsimp only
            linarith
          · dsimp only
            linarith
      · exact ⟨ht0, ht1⟩

theorem runCalls_bucketInv (m p : ℕ) (hm : 0 < m) :
    ∀ (times : List ℚ) (b : Option Bucket), bucketInv m b →
      times.Chain' (· ≤ ·) →
      (∀ bk, b = some bk → ∀ t ∈ times.head?, bk.last_refill ≤ t) →
      bucketInv m (InMemoryRateLimiter.runCalls b m p times).2 := by
  intro times
  induction times with
  | nil => intro b hb _ _; exact hb
  | cons now rest ih =>
      intro b hb hchain hhead
      unfold InMemoryRateLimiter.runCalls
      dsimp only
      apply ih
      · apply is_allowed_bucketInv m p hm b hb now
        intro bk hbk
        exact hhead bk hbk now (by simp)
      · exact hchain.tail
      · intro bk hbk t ht
        injection hbk with hbk'
        have hlr : bk.last_refill = now := by
          rw [← hbk']
          exact is_allowed_last_refill b now m p
        rw [hlr]
        cases rest with
        | nil => simp at ht
        | cons t0 r =>
            have hteq : t = t0 := by
              rw [Option.mem_def] at ht
              simp only [List.head?] at ht
              injection ht with ht'
              exact ht'.symm
            subst hteq
            exact (List.chain'_cons.1 hchain).1

/-! ### Dispatch helper lemmas -/

theorem foldl_disconnect_const (f : Nat) :
    ∀ (l : List Nat) (s : ManagerState), (∀ x ∈ l, x = f) → l ≠ [] →
      l.foldl (fun st ws => disconnect st ws) s = disconnect s f := by
  intro l
  induction l with
  | nil => intro s _ h; exact absurd rfl h
  | cons x rest ih =>
      intro s hall _
      have hx : x = f := hall x (List.mem_cons_self _ _)
      subst hx
      by_cases hr : rest = []
      · subst hr
        rfl
      · rw [List.foldl_cons]
        rw [ih (disconnect s x) (fun z hz => hall z (List.mem_cons_of_mem _ hz)) hr]
        exact disconnect_idem s x

theorem alGet_of_mem_nodup {K V : Type} [DecidableEq K] {d : List (K × V)}
    (hnd : NodupKeys d) {p : K × V} (hp : p ∈ d) : alGet d p.1 = some p.2 := by
  induction d with
  | nil => simp at hp
  | cons hd tl ih =>
      obtain ⟨a, b⟩ := hd
      unfold NodupKeys at hnd
      simp only [List.map_cons, List.nodup_cons] at hnd
      rcases List.mem_cons.1 hp with h1 | h2
      · subst h1
        simp [alGet]
      · have hne : a ≠ p.1 := by
          intro hc
          exact hnd.1 (List.mem_map.2 ⟨p, h2, hc.symm⟩)
        rw [show alGet ((a, b) :: tl) p.1 = alGet tl p.1 from by
          simp [alGet, hne]]
        exact ih hnd.2 h2

theorem userBacked_inj {s : ManagerState} {u u' : String} {ws : Nat}
    (h : userBacked s u ws = true) (h' : userBacked s u' ws = true) :
    u = u' := by
  unfold userBacked at h h'
  cases hget : alGet s.connInfo ws with
  | none =>
      rw [hget] at h
      exact Bool.noConfusion h
  | some i =>
      rw [hget] at h h'
      simp only [decide_eq_true_eq] at h h'
      exact Option.some.inj (h.symm.trans h')

/-! ### Claim theorems -/

/-- C1, counterexample: the claim quantifies over every connect/disconnect
sequence, but when a handle connects a second time while still registered the
identity is overwritten, and `disconnect` then only cleans the groups of the
latest identity. After `connect(0, u, [g1]); connect(0, u, [g2]);
disconnect(0)` the handle is gone from the identity back-reference yet still
present in the `g1` group index, so it is not absent from every group index. -/
theorem disconnect_stale_group_counterexample :
    memGroup
        (applyOps initState
          [Op.connect 0 ⟨some "u", ["g1"]⟩, Op.connect 0 ⟨some "u", ["g2"]⟩,
            Op.disconnect 0])
        "g1" 0 = true ∧
    alGet
        (applyOps initState
          [Op.connect 0 ⟨some "u", ["g1"]⟩, Op.connect 0 ⟨some "u", ["g2"]⟩,
            Op.disconnect 0]).connInfo
        0 = none := by
  constructor
  · decide
  · decide

/-- C1 (amended): for every connect/disconnect sequence in which each connect
targets a handle not currently in the identity back-reference, immediately
after `disconnect(h)` the handle is absent from the user index, from every
group index, and from the identity back-reference simultaneously; and
`disconnect` of a handle absent from the identity back-reference leaves the
state (all three indexes) unchanged. -/
theorem disconnect_removes_all_after_fresh_sequence (ops : List Op) (h : Nat)
    (hfresh : freshSeq initState ops) :
    absentEverywhere (disconnect (applyOps initState ops) h) h ∧
    (alGet (applyOps initState ops).connInfo h = none →
      disconnect (applyOps initState ops) h = applyOps initState ops) := by
  have hInv := regInv_applyOps ops initState regInv_initState hfresh
  exact ⟨disconnect_absent hInv h, fun hnone => disconnect_of_none hnone⟩

/-- Witness for C1: the amended theorem applied to the one-connect sequence
`connect(0, u, [g]); disconnect(0)`, specialized to the concrete user and
group. -/
theorem disconnect_removes_all_after_fresh_sequence_witness :
    memUser (disconnect (applyOps initState [Op.connect 0 ⟨some "u", ["g"]⟩]) 0)
        "u" 0 = false ∧
    memGroup (disconnect (applyOps initState [Op.connect 0 ⟨some "u", ["g"]⟩]) 0)
        "g" 0 = false ∧
    alGet
        (disconnect (applyOps initState [Op.connect 0 ⟨some "u", ["g"]⟩])
          0).connInfo 0 = none := by
  have hmain := disconnect_removes_all_after_fresh_sequence
    [Op.connect 0 ⟨some "u", ["g"]⟩] 0 (by decide)
  obtain ⟨habs, -⟩ := hmain
  unfold absentEverywhere at habs
  exact ⟨habs.1 "u", habs.2.1 "g", habs.2.2⟩

/-- C2, counterexample: the claim says a failed acknowledgement write surfaces
as an error to the caller of `connect`, but `_send_to_websocket` catches every
send failure, so `connect` returns without error even when the
acknowledgement write fails. -/
theorem connect_ack_failure_no_error_counterexample :
    isError (connect initState 0 ⟨some "u", []⟩ 0 true) = false := rfl

/-- C2 (amended): `connect` sends a synchronous acknowledgement carrying the
user id and the server timestamp; when the acknowledgement write fails, the
error is caught inside `connect` (nothing surfaces to the caller), the handle
is disconnected — leaving it absent from all three indexes — and `connect`
still returns successfully. -/
theorem connect_ack_semantics (s : ManagerState) (ws : Nat) (info : ConnInfo)
    (now : ℚ) (hInv : RegInv s) (hfresh : alGet s.connInfo ws = none) :
    connect s ws info now false =
        .ok (some ⟨"connection", "connected", info.user_id, now⟩,
          connectReg s ws info) ∧
    connect s ws info now true =
        .ok (none, disconnect (connectReg s ws info) ws) ∧
    absentEverywhere (disconnect (connectReg s ws info) ws) ws := by
  refine ⟨rfl, rfl, ?_⟩
  exact disconnect_absent (regInv_connectReg hInv info hfresh) ws

/-- Witness for C2: the amended theorem applied to a fresh handle on the
empty registry. -/
theorem connect_ack_semantics_witness :
    connect initState 0 ⟨some "u", []⟩ 0 false =
        .ok (some ⟨"connection", "connected", some "u", 0⟩,
          connectReg initState 0 ⟨some "u", []⟩) ∧
    connect initState 0 ⟨some "u", []⟩ 0 true =
        .ok (none, disconnect (connectReg initState 0 ⟨some "u", []⟩) 0) ∧
    memUser (disconnect (connectReg initState 0 ⟨some "u", []⟩) 0) "u" 0 =
        false := by
  have hmain := connect_ack_semantics initState 0 ⟨some "u", []⟩ 0
    (by decide) (by decide)
  obtain ⟨h1, h2, habs⟩ := hmain
  unfold absentEverywhere at habs
  exact ⟨h1, h2, habs.1 "u"⟩

/-- C3: at a configuration whose `a` entry has both `calls` and `period`
present but a non-integer `calls` value, `RateLimitConfig._load_config`
applies `int()` unguarded, the `ValueError` escapes the per-entry loop, and
the parse of the remaining valid entry `b` never completes — whereas the same
valid entry parses fine on its own. This exhibits the divergence from the
claim that such entries are excluded without aborting the rest. -/
theorem load_config_aborts_on_nonint_value :
    load_config
        [("a", Val.vdict [("calls", Val.vstr "x"), ("period", Val.vint 60)]),
         ("b", Val.vdict [("calls", Val.vint 5), ("period", Val.vint 60)])] =
      .error "ValueError" ∧
    load_config
        [("b", Val.vdict [("calls", Val.vint 5), ("period", Val.vint 60)])] =
      .ok ([("b", (5, 60))], true) ∧
    load_config
        [("missing", Val.vdict [("calls", Val.vint 10)]),
         ("b", Val.vdict [("calls", Val.vint 5), ("period", Val.vint 60)])] =
      .ok ([("b", (5, 60))], true) := by
  refine ⟨rfl, rfl, rfl⟩

/-- C4: with `max_calls = 5`, `period = 60` and a fresh key, five immediate
checks return true, the sixth returns false, and after 30 simulated seconds
exactly two further checks return true before the next false; and the
first-ever check of any key initializes the bucket to `max_calls - 1` tokens
with the current refill time and returns true. -/
theorem token_bucket_five_per_minute_scenario :
    (InMemoryRateLimiter.runCalls none 5 60
        [0, 0, 0, 0, 0, 0, 30, 30, 30]).1 =
      [true, true, true, true, true, false, true, true, false] ∧
    ∀ (now : ℚ) (m p : ℕ),
      InMemoryRateLimiter.is_allowed none now m p =
        (true, ⟨(m : ℚ) - 1, now⟩) := by
  constructor
  · simp only [InMemoryRateLimiter.runCalls, InMemoryRateLimiter.is_allowed]
    norm_num
  · intro now m p
    rfl

/-- C6: whenever the shared store interaction raises (the `Except.error`
case), `RedisRateLimiter.is_allowed` catches the error and allows the
request; when the store responds, the computed sliding-window verdict is
returned. -/
theorem redis_fails_open :
    (∀ (e : String) (now : ℚ) (m p : ℕ),
      RedisRateLimiter.is_allowed_fallible (.error e) now m p = true) ∧
    (∀ (entries : List ℚ) (now : ℚ) (m p : ℕ),
      RedisRateLimiter.is_allowed_fallible (.ok entries) now m p =
        (RedisRateLimiter.is_allowed entries now m p).1) := by
  exact ⟨fun _ _ _ _ => rfl, fun _ _ _ _ => rfl⟩

/-- C10: `handle_message` answers a `"ping"` with a `"pong"` echoing the
client timestamp and returns before the custom-handler lookup, so a handler
registered under `"ping"` is never invoked. -/
theorem ping_handler_shadowed :
    ∀ (handlers : List (String × Nat)) (h : Nat) (ts : Option Val),
      handle_message (register_handler handlers "ping" h) "ping" ts =
        (some ("pong", ts), none) := by
  intro handlers h ts
  rfl

/-- C5: one distributed sliding-window round trip on timestamps that are
clock readings (nonnegative) keeps exactly the entries strictly inside the
trailing window, answers allowed iff their pre-insert count is strictly below
`max_calls`, inserts `now`, and resets the TTL to `period`; concretely with
`max_calls = 2` and `period = 10`, a third call in the same window is denied
and a later call after the oldest entry has left the window is allowed. -/
theorem redis_sliding_window_characterization (entries : List ℚ) (now : ℚ)
    (m p : ℕ) (hpos : ∀ t ∈ entries, 0 ≤ t) :
    RedisRateLimiter.is_allowed entries now m p =
        (decide
            ((entries.filter (fun t => decide (now - (p : ℚ) < t))).length < m),
         (if now ∈ entries.filter (fun t => decide (now - (p : ℚ) < t))
          then entries.filter (fun t => decide (now - (p : ℚ) < t))
          else entries.filter (fun t => decide (now - (p : ℚ) < t)) ++ [now]),
         p) ∧
    (RedisRateLimiter.is_allowed [0, 1] 2 2 10).1 = false ∧
    (RedisRateLimiter.is_allowed [0, 1, 2] 11 2 10).1 = true := by
  have hfil :
      entries.filter
          (fun t => !(decide (0 ≤ t) && decide (t ≤ now - (p : ℚ)))) =
        entries.filter (fun t => decide (now - (p : ℚ) < t)) := by
    apply List.filter_congr
    intro t ht
    have h0 : 0 ≤ t := hpos t ht
    rw [decide_eq_true h0, Bool.true_and, ← decide_not]
    exact decide_eq_decide.2 not_le
  refine ⟨?_, ?_, ?_⟩
  · unfold RedisRateLimiter.is_allowed
    dsimp only
    rw [hfil]
  · simp only [RedisRateLimiter.is_allowed]
    norm_num
  · simp only [RedisRateLimiter.is_allowed]
    norm_num

/-- Witness for C5: the characterization applied to two in-window entries at
`now = 2`, whose nonnegativity is checked by evaluation. -/
theorem redis_sliding_window_characterization_witness :
    (RedisRateLimiter.is_allowed [0, 1] 2 2 10).1 = false ∧
    (RedisRateLimiter.is_allowed [0, 1, 2] 11 2 10).1 = true :=
  (redis_sliding_window_characterization [0, 1] 2 2 10 (by norm_num)).2

/-- C9: for any positive `max_calls` and `period` and any sequence of checks
on one key taken at nondecreasing clock readings, after every prefix of the
sequence the bucket holds between `0` and `max_calls` tokens. -/
theorem token_bucket_tokens_in_range (m p : ℕ) (hm : 0 < m) (hp : 0 < p)
    (times : List ℚ) (hchain : times.Chain' (· ≤ ·)) (pre : List ℚ)
    (hpre : pre <+: times) :
    bucketInv m (InMemoryRateLimiter.runCalls none m p pre).2 := by
  have hchainPre : pre.Chain' (· ≤ ·) := hchain.prefix hpre
  exact runCalls_bucketInv m p hm pre none trivial hchainPre
    (fun bk hbk => Option.noConfusion hbk)

/-- Witness for C9: the invariant after the first call of the sequence
`[0, 1]` with `max_calls = 5`, `period = 60`. -/
theorem token_bucket_tokens_in_range_witness :
    bucketInv 5 (InMemoryRateLimiter.runCalls none 5 60 [(0 : ℚ)]).2 :=
  token_bucket_tokens_in_range 5 60 (by norm_num) (by norm_num)
    [(0 : ℚ), 1] (by norm_num) [(0 : ℚ)] ⟨[1], rfl⟩

/-- C7: when exactly one of a user's registered handles fails on write,
`send_to_user` still writes to all the other handles, removes the failed
handle from every registry index within the same call, and returns
successfully; and `send_to_user` for a user with no live handles is a no-op
that also returns successfully. -/
theorem send_to_user_partial_failure (s : ManagerState) (uid : String)
    (conns : List Nat) (f : Nat) (hInv : RegInv s)
    (hget : alGet s.userConns uid = some conns) (hf : f ∈ conns) :
    send_to_user s uid (fun ws => ws == f) =
        .ok (conns.filter (fun ws => !(ws == f)), disconnect s f) ∧
    absentEverywhere (disconnect s f) f ∧
    (∀ (uid2 : String) (failsOn : Nat → Bool),
      alGet s.userConns uid2 = none →
        send_to_user s uid2 failsOn = .ok ([], s)) := by
  refine ⟨?_, disconnect_absent hInv f, ?_⟩
  · unfold send_to_user
    rw [hget]
    dsimp only
    have hall : ∀ x ∈ conns.filter (fun ws => ws == f), x = f := by
      intro x hx
      have := (List.mem_filter.1 hx).2
      simpa using this
    have hne : conns.filter (fun ws => ws == f) ≠ [] := by
      apply List.ne_nil_of_mem (a := f)
      exact List.mem_filter.2 ⟨hf, by simp⟩
    rw [foldl_disconnect_const f (conns.filter fun ws => ws == f) s hall hne]
  · intro uid2 failsOn h
    unfold send_to_user
    rw [h]

/-- Witness for C7: one user with handles 1 and 2 where handle 2 fails; the
message is written to handle 1, handle 2 is removed, the call returns ok, and
delivery to an unknown user is an ok no-op. -/
theorem send_to_user_partial_failure_witness :
    send_to_user pairState "u" (fun ws => ws == 2) =
        .ok (([1, 2] : List Nat).filter (fun ws => !(ws == 2)),
          disconnect pairState 2) ∧
    memUser (disconnect pairState 2) "u" 2 = false ∧
    send_to_user pairState "nobody" (fun _ => false) = .ok ([], pairState) := by
  have hmain := send_to_user_partial_failure pairState "u" [1, 2] 2
    (by decide) (by decide) (by decide)
  obtain ⟨h1, habs, hnoop⟩ := hmain
  unfold absentEverywhere at habs
  exact ⟨h1, habs.1 "u", hnoop "nobody" (fun _ => false) (by decide)⟩

/-- C8: on a registry satisfying the data-model invariant, `broadcast` with
`U` excluded issues no write to any handle registered under `U`, while every
non-excluded user present in the user index has all of its (at least one)
handles written. -/
theorem broadcast_excludes_users (s : ManagerState) (exclude : List String)
    (U : String) (hInv : RegInv s) (hU : U ∈ exclude) :
    (∀ ws, memUser s U ws = true → ws ∉ broadcastWrites s exclude) ∧
    (∀ u l, u ∉ exclude → alGet s.userConns u = some l →
      l ≠ [] ∧ ∀ ws ∈ l, ws ∈ broadcastWrites s exclude) := by
  constructor
  · intro ws hUmem hwrites
    unfold broadcastWrites at hwrites
    rcases List.mem_flatMap.1 hwrites with ⟨q, hq, hwsq⟩
    rcases List.mem_filter.1 hq with ⟨hqmem, hqex⟩
    have hq1 : q.1 ∉ exclude := by
      intro hc
      simp [hc] at hqex
    have hqGet : alGet s.userConns q.1 = some q.2 :=
      alGet_of_mem_nodup hInv.2.2.2.2.1 hqmem
    have hmemq : memUser s q.1 ws = true := by
      unfold memUser
      rw [dmem_iff]
      exact ⟨q.2, hqGet, hwsq⟩
    have hb1 := regInv_memUser_backed hInv hmemq
    have hb2 := regInv_memUser_backed hInv hUmem
    have hUq : U = q.1 := userBacked_inj hb2 hb1
    exact hq1 (hUq ▸ hU)
  · intro u l hu hget
    refine ⟨hInv.2.2.1 (u, l) (alGet_mem hget), fun ws hws => ?_⟩
    unfold broadcastWrites
    apply List.mem_flatMap.2
    refine ⟨(u, l), List.mem_filter.2 ⟨alGet_mem hget, ?_⟩, hws⟩
    simp [hu]

/-- Witness for C8: two users, `v` excluded; `v`'s handle 2 receives no
write while `u`'s handle 1 is written. -/
theorem broadcast_excludes_users_witness :
    (2 : Nat) ∉ broadcastWrites twoUserState ["v"] ∧
    (1 : Nat) ∈ broadcastWrites twoUserState ["v"] := by
  have hmain := broadcast_excludes_users twoUserState ["v"] "v"
    (by decide) (by decide)
  exact ⟨hmain.1 2 (by decide),
    (hmain.2 "u" [1] (by decide) (by decide)).2 1 (by decide)⟩
